import Mathlib

/-!
Verification development for VarCleaner (src/main.rs).

VarCleaner scans an AddonPackages tree for duplicated `.var` zip archives
(same basename, different sub-paths), extracts each duplicate group into a
temporary workspace, reconciles members by largest byte size, repackages the
winners into one merged archive, and relocates the originals to a backup
folder.

This file gives a shallow embedding of the Rust source.  Filesystem and zip
library effects are made explicit as data: an archive is a list of member
entries, the filesystem operations a function performs are collected into an
effect trace, and panics (every `unwrap`/`expect`/`panic!` in the source) are
represented by explicit panic outcomes or by the truncation of the panicking
task at the point of the panic.
-/

namespace VarCleaner

/-- A path component, as produced by `std::path::Components` when the zip
crate sanitizes a member name (`ZipFile::enclosed_name`, used at
src/main.rs:218). -/
inductive PComp where
  | normal (s : String)
  | parentDir
  | curDir
  | rootDir
deriving DecidableEq, Repr

/-- Depth counter of the zip crate member-name sanitizer: `normal` pushes one
level, `..` pops one level and fails (returns `none`) when already at depth
zero, an absolute component fails outright.  This models the loop inside
`ZipFile::enclosed_name` in the zip crate, called at src/main.rs:218. -/
def enclosedDepth : List PComp → Nat → Option Nat
  | [], d => some d
  | PComp.normal _ :: rest, d => enclosedDepth rest (d + 1)
  | PComp.curDir :: rest, d => enclosedDepth rest d
  | PComp.parentDir :: rest, d =>
    match d with
    | 0 => none
    | Nat.succ k => enclosedDepth rest k
  | PComp.rootDir :: _, _ => none

/-- `ZipFile::enclosed_name` (zip crate): returns the member name unchanged
when the depth check succeeds, `none` when the name is absolute or its `..`
components would escape upward.  Model of the call at src/main.rs:218-221. -/
def enclosed_name (cs : List PComp) : Option (List PComp) :=
  match enclosedDepth cs 0 with
  | some _ => some cs
  | none => none

/-- Operating-system resolution of a relative path against a directory: a
stack of directory names, where `..` pops (and escapes the root when the
stack is empty, yielding `none`), `.` is skipped, an absolute component
leaves the root entirely. -/
def resolveAux : List PComp → List String → Option (List String)
  | [], acc => some acc.reverse
  | PComp.normal s :: rest, acc => resolveAux rest (s :: acc)
  | PComp.curDir :: rest, acc => resolveAux rest acc
  | PComp.parentDir :: rest, acc =>
    match acc with
    | [] => none
    | _ :: t => resolveAux rest t
  | PComp.rootDir :: _, _ => none

/-- Resolve a member name from the destination root; `none` means the path
escapes the root. -/
def resolveComps (cs : List PComp) : Option (List String) :=
  resolveAux cs []

/-- One entry of a zip archive index, as visited by the loop at
src/main.rs:210-236.  `byIndexOk` records whether `archive.by_index(i)`
succeeds (src/main.rs:211-217); `name` is the member name; `isDir` is
`file.is_dir()`; `fileId` identifies the member content; `size` its byte
size. -/
structure MemberEntry where
  byIndexOk : Bool
  name : List PComp
  isDir : Bool
  fileId : Nat
  size : Nat
deriving DecidableEq, Repr

/-- The ways a source archive can present itself to `unzip_one_file`
(src/main.rs:198-208): the file cannot be opened at all
(`fs::File::open(...).expect(...)` panics), the zip index is unreadable
(`zip::ZipArchive::new` returns `Err`), or it opens with a member list. -/
inductive ArchiveInput where
  | openFail
  | invalidZip
  | ok (members : List MemberEntry)
deriving DecidableEq, Repr

/-- A write `unzip_one_file` performs under the group temporary directory:
`path` is the target path relative to the group temporary root (so its head
is the decimal rendering of the extraction index), `isDirW` tells a
`create_dir_all` from a file write (`File::create` + `io::copy`). -/
structure WriteAction where
  path : List String
  isDirW : Bool
  fileId : Nat
  size : Nat
deriving DecidableEq, Repr

/-- The member loop of `unzip_one_file` (src/main.rs:210-236): a member whose
`by_index` fails is skipped with a printed warning (continue), a member whose
`enclosed_name` is `none` is skipped silently (continue), every other member
is written at `base/<idx>/<outpath>`. -/
def memberWrites (idx : Nat) (ms : List MemberEntry) : List WriteAction :=
  ms.filterMap fun m =>
    if m.byIndexOk then
      match enclosed_name m.name with
      | none => none
      | some nm =>
        match resolveComps nm with
        | none => none
        | some r => some ⟨toString idx :: r, m.isDir, m.fileId, m.size⟩
    else none

/-- Outcome of `unzip_one_file` (src/main.rs:198-237): panic on an unopenable
file, an early return with a printed message on an invalid zip, or normal
completion with the performed writes. -/
inductive UnzipOutcome where
  | panicOut
  | skippedInvalid
  | done (writes : List WriteAction)
deriving DecidableEq, Repr

/-- `unzip_one_file` (src/main.rs:198-237), with the source archive state
made explicit.  The `expect` at src/main.rs:200-201 panics when the file
cannot be opened; the `match` at src/main.rs:199-208 prints and returns when
the zip index is unreadable; otherwise each member is processed in order. -/
def unzip_one_file (a : ArchiveInput) (idx : Nat) : UnzipOutcome :=
  match a with
  | ArchiveInput.openFail => UnzipOutcome.panicOut
  | ArchiveInput.invalidZip => UnzipOutcome.skippedInvalid
  | ArchiveInput.ok ms => UnzipOutcome.done (memberWrites idx ms)

/-- A relative-path key inside the reconciliation map of `rezip_one_file`
(src/main.rs:157): the member path relative to its own index subtree.  The
source uses the string form of the path; components are kept here. -/
abbrev Key := List String

/-- A candidate inside the reconciliation map: (content identifier, byte
size), standing for the `(PathBuf, u64)` value of src/main.rs:157. -/
abbrev Cand := Nat × Nat

/-- One entry the glob scan of `rezip_one_file` (src/main.rs:162-184) visits
under the group temporary root: its path relative to that root, whether it is
a regular file, its content identifier and byte size. -/
structure ScanEntry where
  path : List String
  isFile : Bool
  fileId : Nat
  size : Nat
deriving DecidableEq, Repr

/-- `get_short_path` (src/main.rs:85-87): the path relative to the group
temporary root with its first component (the extraction index) skipped. -/
def get_short_path (p : List String) : List String :=
  p.drop 1

/-- First-binding lookup in a key-candidate association list (models
`HashMap::get` / `contains_key` at src/main.rs:170-177). -/
def alookup (k : Key) : List (Key × Cand) → Option Cand
  | [] => none
  | (k₁, v) :: rest => if k₁ = k then some v else alookup k rest

/-- Replace the value of the first binding of `k` (models the in-place
`*result.get_mut(..) = ..` at src/main.rs:178). -/
def aupdate (k : Key) (v : Cand) : List (Key × Cand) → List (Key × Cand)
  | [] => []
  | (k₁, v₁) :: rest =>
    if k₁ = k then (k₁, v) :: rest else (k₁, v₁) :: aupdate k v rest

/-- One step of the reconciliation loop of `rezip_one_file`
(src/main.rs:163-183): non-files are skipped; an unseen key is inserted with
the occurrence; a seen key is replaced only when the new size is strictly
greater, ties and smaller sizes keep the stored candidate. -/
def reconStep (acc : List (Key × Cand)) (e : ScanEntry) : List (Key × Cand) :=
  if e.isFile then
    match alookup (get_short_path e.path) acc with
    | none => acc ++ [(get_short_path e.path, (e.fileId, e.size))]
    | some c =>
      if c.2 < e.size then aupdate (get_short_path e.path) (e.fileId, e.size) acc
      else acc
  else acc

/-- The reconciliation map built by the scan loop of `rezip_one_file`
(src/main.rs:157-184), folding over the scan entries in scan order. -/
def reconMap (es : List ScanEntry) : List (Key × Cand) :=
  es.foldl reconStep []

/-- The occurrences of one relative-path key among the scan entries, in scan
order: the file entries whose `get_short_path` equals the key. -/
def occurrencesOf (k : Key) (es : List ScanEntry) : List Cand :=
  es.filterMap fun e =>
    if e.isFile = true ∧ get_short_path e.path = k then
      some (e.fileId, e.size)
    else none

/-- The per-key folding rule the reconciliation loop implements: keep the
current best, adopt a new occurrence only when strictly larger. -/
def bestFrom : Option Cand → List Cand → Option Cand
  | cur, [] => cur
  | none, o :: rest => bestFrom (some o) rest
  | some b, o :: rest =>
    if b.2 < o.2 then bestFrom (some o) rest else bestFrom (some b) rest

/-- The candidate the reconciliation retains for one key, given the
occurrences of that key in scan order. -/
def bestOcc (occs : List Cand) : Option Cand :=
  bestFrom none occs

/-- Outcome of `rezip_one_file` (src/main.rs:156-196): an early return when
the reconciliation map is empty (src/main.rs:186-188), a panic when
`zip_one_file(..).unwrap()` fails (src/main.rs:195), or the packed merged
archive whose members are exactly the staged winners.  The staging loop
(src/main.rs:190-194) moves each winner to `working/<key>` and
`zip_one_file` (src/main.rs:132-154) walks that tree and writes one entry
per staged file, so the packed member list equals the reconciliation map. -/
inductive RezipOutcome where
  | panicOut
  | abandoned
  | packed (members : List (Key × Cand))
deriving DecidableEq, Repr

/-- `rezip_one_file` (src/main.rs:156-196) with the glob scan result and the
success of the final `zip_one_file` call made explicit. -/
def rezip_one_file (es : List ScanEntry) (packOk : Bool) : RezipOutcome :=
  let r := reconMap es
  if r.isEmpty then RezipOutcome.abandoned
  else if packOk then RezipOutcome.packed r
  else RezipOutcome.panicOut

/-- Outcome of `file_op` (src/main.rs:50-59).  Every filesystem call inside
it is followed by `unwrap`, so a missing source makes the copy branch
(`File::open`) or the move branch (`fs::rename`) panic. -/
inductive FileOpResult where
  | panicOut
  | copied
  | renamed
deriving DecidableEq, Repr

/-- `file_op` (src/main.rs:50-59) with the existence of the source at call
time made explicit: copy or rename when the source exists, panic through
`unwrap` when it does not. -/
def file_op (is_copy : Bool) (srcExists : Bool) : FileOpResult :=
  if is_copy then
    if srcExists then FileOpResult.copied else FileOpResult.panicOut
  else
    if srcExists then FileOpResult.renamed else FileOpResult.panicOut

/-- One member archive of a duplicate group as the member task at
src/main.rs:274-280 sees it: the state of the archive for extraction, and
whether the source file still exists when the backup rename runs. -/
structure MemberSpec where
  archive : ArchiveInput
  srcExists : Bool
deriving DecidableEq, Repr

/-- Observable filesystem effects of a run, used as the trace alphabet of
the orchestration model.  `writeTmp` is a write below the group temporary
root, `backup` the relocation of member `idx` of group `grp` to the backup
mirror, `stage` the move of one winning key into `working`, `packOut` the
creation of the merged archive, `removeGroupTmp` the per-group
`remove_dir_all` (src/main.rs:285), `removeTmpRoot` the final
`remove_dir_all` of the whole temporary root (src/main.rs:291-293). -/
inductive Effect where
  | writeTmp (grp : String) (w : WriteAction)
  | backup (grp : String) (idx : Nat)
  | reconcile (grp : String)
  | stage (grp : String) (k : Key)
  | packOut (grp : String)
  | removeGroupTmp (grp : String)
  | removeTmpRoot
deriving DecidableEq, Repr

/-- Effects of one member task (src/main.rs:274-280): extract with
`unzip_one_file`, then relocate the original with `file_op(false, ..)`.  A
panicking extraction (unopenable archive) ends the task before the backup
rename; a vanished source makes the rename panic, so no backup effect is
recorded; the panic stays inside the member worker thread. -/
def memberTaskEffects (grp : String) (idx : Nat) (m : MemberSpec) : List Effect :=
  match unzip_one_file m.archive idx with
  | UnzipOutcome.panicOut => []
  | UnzipOutcome.skippedInvalid =>
    if m.srcExists then [Effect.backup grp idx] else []
  | UnzipOutcome.done ws =>
    ws.map (Effect.writeTmp grp) ++
      (if m.srcExists then [Effect.backup grp idx] else [])

/-- The writes a member extraction performs (empty for a panicking or
invalid archive). -/
def memberUnzipWrites (idx : Nat) (m : MemberSpec) : List WriteAction :=
  match unzip_one_file m.archive idx with
  | UnzipOutcome.done ws => ws
  | _ => []

/-- One duplicate group as the group task at src/main.rs:262-288 sees it:
the shared basename, the ordered member list, and whether the final
`zip_one_file` call of `rezip_one_file` succeeds. -/
structure GroupSpec where
  filename : String
  members : List MemberSpec
  packOk : Bool
deriving DecidableEq, Repr

/-- `fs::exists(var_tmp_folder)` at src/main.rs:283: the group temporary
folder exists exactly when some member extraction wrote below it (the
directories are created lazily by the writes of `unzip_one_file`). -/
def groupTmpExists (g : GroupSpec) : Bool :=
  g.members.enum.any fun p => !(memberUnzipWrites p.1 p.2).isEmpty

/-- The scan entries the glob of `rezip_one_file` (src/main.rs:162) finds
under the group temporary root: every write of every member extraction,
with its path relative to that root (head component: the extraction
index). -/
def groupScanEntries (g : GroupSpec) : List ScanEntry :=
  g.members.enum.flatMap fun p =>
    (memberUnzipWrites p.1 p.2).map fun w =>
      ⟨w.path, !w.isDirW, w.fileId, w.size⟩

/-- The member (extraction) phase of one group task: the effects of all
member tasks, one inner-pool task per member (src/main.rs:272-281),
completed before the join at src/main.rs:282 releases the group task. -/
def memberPhase (g : GroupSpec) : List Effect :=
  g.members.enum.flatMap fun p => memberTaskEffects g.filename p.1 p.2

/-- The post-join phase of one group task (src/main.rs:283-286): when the
group temporary folder exists, the reconciliation scan runs; an empty
reconciliation map returns early and the per-group cleanup still runs; a
non-empty map stages the winners and packs them, and only a successful pack
reaches the per-group cleanup (the `unwrap` at src/main.rs:195 panics the
group task otherwise, before src/main.rs:285). -/
def groupPost (g : GroupSpec) : List Effect :=
  if groupTmpExists g then
    if (reconMap (groupScanEntries g)).isEmpty then
      [Effect.reconcile g.filename, Effect.removeGroupTmp g.filename]
    else
      Effect.reconcile g.filename ::
        ((reconMap (groupScanEntries g)).map fun b => Effect.stage g.filename b.1) ++
          (if g.packOk then
            [Effect.packOut g.filename, Effect.removeGroupTmp g.filename]
          else [])
  else []

/-- Effects of one group task (src/main.rs:262-288).  Groups with a single
member do nothing; otherwise the member phase runs and, after the join, the
post phase. -/
def groupEffects (g : GroupSpec) : List Effect :=
  if g.members.length > 1 then memberPhase g ++ groupPost g
  else []

/-- `fs::exists(dst_tmp_folder)` at src/main.rs:291 after all group tasks
joined: the temporary root exists exactly when some group created its
subtree below it. -/
def tmpRootRemains (gs : List GroupSpec) : Bool :=
  gs.any fun g => decide (g.members.length > 1) && groupTmpExists g

/-- Effects of `main` after discovery (src/main.rs:256-293): every group
task runs (one outer-pool task per group; the flattening fixes one
serialization of the concurrent trace, membership of effects does not depend
on it), then the final cleanup removes the whole temporary root when it
exists. -/
def mainEffects (gs : List GroupSpec) : List Effect :=
  (gs.flatMap groupEffects) ++
    (if tmpRootRemains gs then [Effect.removeTmpRoot] else [])

/-- One item yielded by the discovery glob iterator at src/main.rs:65-80:
either a path (with whether it is a regular file) or a `GlobError`,
identified by a numeric code. -/
inductive GlobItem where
  | okItem (path : List String) (isFile : Bool)
  | errItem (code : Nat)
deriving DecidableEq, Repr

/-- `path.file_name()` of a discovered path (src/main.rs:73): its last
component. -/
def basenameOf (p : List String) : String :=
  (p.getLast?).getD ""

/-- Insert a path at the back of the list of its basename group, creating
the group when unseen (src/main.rs:74-77, `contains_key` / `insert` /
`push_back`). -/
def pushGroup (acc : List (String × List (List String))) (name : String)
    (p : List String) : List (String × List (List String)) :=
  match acc with
  | [] => [(name, [p])]
  | (n, ps) :: rest =>
    if n = name then (n, ps ++ [p]) :: rest
    else (n, ps) :: pushGroup rest name p

/-- The discovery loop of `generate_duplicate_var_files` (src/main.rs:64-82):
non-files are skipped, files are grouped by basename, and the first
`GlobError` makes the whole function return that error immediately
(src/main.rs:79). -/
def gen_dup_aux : List GlobItem → List (String × List (List String)) →
    Except Nat (List (String × List (List String)))
  | [], acc => Except.ok acc
  | GlobItem.okItem p f :: rest, acc =>
    if f then gen_dup_aux rest (pushGroup acc (basenameOf p) p)
    else gen_dup_aux rest acc
  | GlobItem.errItem e :: _, _ => Except.error e

/-- `generate_duplicate_var_files` (src/main.rs:61-83). -/
def generate_duplicate_var_files (items : List GlobItem) :
    Except Nat (List (String × List (List String))) :=
  gen_dup_aux items []

/-- The discovery step of `main` (src/main.rs:257):
`generate_duplicate_var_files(..).unwrap()`.  `none` stands for the panic of
the `unwrap` — the run aborts before any group is processed. -/
def mainDiscoveryOutcome (items : List GlobItem) :
    Option (List (String × List (List String))) :=
  match generate_duplicate_var_files items with
  | Except.error _ => none
  | Except.ok gs => some gs

/-- Capacity of the outer worker pool, `ThreadPool::new(12)` at
src/main.rs:256. -/
def outerPoolCapacity : Nat := 12

/-- Capacity of the inner per-group worker pool,
`ThreadPool::new(filelist_clone.len())` at src/main.rs:269. -/
def innerPoolCapacity (g : GroupSpec) : Nat :=
  g.members.length

/-- Number of tasks the outer pool receives: one `hscope.execute` per
discovered group (src/main.rs:259-288). -/
def outerTaskCount (gs : List GroupSpec) : Nat :=
  (gs.map groupEffects).length

/-- Number of tasks the inner pool of one group receives: one
`scope.execute` per member (src/main.rs:272-281). -/
def innerTaskCount (g : GroupSpec) : Nat :=
  (g.members.enum.map fun p => memberTaskEffects g.filename p.1 p.2).length

/-- Whether an effect belongs to the member phase (extraction writes and
backup relocations) as opposed to the reconciliation, staging, packing and
cleanup phase. -/
def isMemberPhaseEffect : Effect → Bool
  | Effect.writeTmp _ _ => true
  | Effect.backup _ _ => true
  | _ => false

/-! ## Helper lemmas -/

theorem enclosed_name_eq_self {cs nm : List PComp} (h : enclosed_name cs = some nm) :
    nm = cs := by
  unfold enclosed_name at h
  cases hd : enclosedDepth cs 0 <;> rw [hd] at h
  · exact absurd h (by simp)
  · injection h with h
    exact h.symm

theorem resolveAux_isSome_of_depth (cs : List PComp) :
    ∀ (acc : List String) (d d₁ : Nat), acc.length = d →
      enclosedDepth cs d = some d₁ → ∃ r, resolveAux cs acc = some r := by
  induction cs with
  | nil => intro acc d d₁ _ _; exact ⟨acc.reverse, rfl⟩
  | cons c rest ih =>
    intro acc d d₁ hlen hd
    cases c with
    | normal s =>
      simp only [enclosedDepth] at hd
      exact ih (s :: acc) (d + 1) d₁ (by simp [hlen]) hd
    | curDir =>
      simp only [enclosedDepth] at hd
      exact ih acc d d₁ hlen hd
    | parentDir =>
      cases d with
      | zero => simp [enclosedDepth] at hd
      | succ k =>
        cases acc with
        | nil => simp at hlen
        | cons a t =>
          simp only [enclosedDepth] at hd
          have ht : t.length = k := by simpa using hlen
          obtain ⟨r, hr⟩ := ih t k d₁ ht hd
          exact ⟨r, by simpa [resolveAux] using hr⟩
    | rootDir => simp [enclosedDepth] at hd

theorem enclosed_name_some_resolves (cs : List PComp) (h : enclosed_name cs ≠ none) :
    ∃ r, resolveComps cs = some r := by
  unfold enclosed_name at h
  cases hd : enclosedDepth cs 0 <;> rw [hd] at h
  · exact absurd rfl h
  · exact resolveAux_isSome_of_depth cs [] 0 _ rfl hd

theorem memberTaskEffects_phase (grp : String) (idx : Nat) (m : MemberSpec) :
    ∀ e ∈ memberTaskEffects grp idx m, isMemberPhaseEffect e = true := by
  intro e he
  unfold memberTaskEffects at he
  cases h : unzip_one_file m.archive idx
  case panicOut =>
    rw [h] at he
    simp at he
  case skippedInvalid =>
    rw [h] at he
    by_cases hs : m.srcExists = true
    · rw [if_pos hs] at he
      simp at he
      rw [he]
      rfl
    · rw [if_neg hs] at he
      simp at he
  case done ws =>
    rw [h] at he
    rcases List.mem_append.mp he with h₁ | h₁
    · obtain ⟨w, _, hw⟩ := List.mem_map.mp h₁
      rw [← hw]
      rfl
    · by_cases hs : m.srcExists = true
      · rw [if_pos hs] at h₁
        simp at h₁
        rw [h₁]
        rfl
      · rw [if_neg hs] at h₁
        simp at h₁

theorem memberPhase_phase (g : GroupSpec) :
    ∀ e ∈ memberPhase g, isMemberPhaseEffect e = true := by
  intro e he
  obtain ⟨p, _, hp⟩ := List.mem_flatMap.mp he
  exact memberTaskEffects_phase g.filename p.1 p.2 e hp

theorem groupPost_not_phase (g : GroupSpec) :
    ∀ e ∈ groupPost g, isMemberPhaseEffect e = false := by
  intro e he
  unfold groupPost at he
  split at he
  · split at he
    · simp at he
      rcases he with h | h <;> rw [h] <;> rfl
    · rcases List.mem_cons.mp he with h | h
      · rw [h]; rfl
      · rcases List.mem_append.mp h with h₁ | h₁
        · obtain ⟨b, _, hb⟩ := List.mem_map.mp h₁
          rw [← hb]
          rfl
        · split at h₁
          · simp at h₁
            rcases h₁ with h₂ | h₂ <;> rw [h₂] <;> rfl
          · simp at h₁
  · simp at he

theorem gen_dup_aux_error (e : Nat) : ∀ (items : List GlobItem) (acc : List (String × List (List String))),
    GlobItem.errItem e ∈ items → ∃ e₁, gen_dup_aux items acc = Except.error e₁ := by
  intro items
  induction items with
  | nil => intro acc h; simp at h
  | cons i rest ih =>
    intro acc h
    cases i with
    | okItem p f =>
      have hr : GlobItem.errItem e ∈ rest := by
        rcases List.mem_cons.mp h with h₁ | h₁
        · exact absurd h₁ (by simp)
        · exact h₁
      unfold gen_dup_aux
      by_cases hf : f = true
      · rw [if_pos hf]
        exact ih _ hr
      · rw [if_neg hf]
        exact ih _ hr
    | errItem e₁ => exact ⟨e₁, rfl⟩

/-! ## Claim theorems -/

/-- Claim C7: every group containing exactly one archive produces no merged
output, no extraction, no backup move and no temporary workspace — the group
task at src/main.rs:262-288 does nothing when the member count is not
greater than one, so its effect trace is empty. -/
theorem single_member_group_untouched (g : GroupSpec) (h : g.members.length = 1) :
    groupEffects g = [] := by
  simp [groupEffects, h]

/-- Witness for `single_member_group_untouched` at a concrete one-member
group. -/
theorem single_member_group_untouched_witness :
    (GroupSpec.mk "pkg.var" [MemberSpec.mk (ArchiveInput.ok []) true] true).members.length = 1 ∧
    groupEffects (GroupSpec.mk "pkg.var" [MemberSpec.mk (ArchiveInput.ok []) true] true) = [] :=
  ⟨rfl, single_member_group_untouched _ rfl⟩

/-- Claim C4 counterexample: when the source file no longer exists at
relocation time, `file_op(false, ..)` is not a logged no-op but panics
through the `unwrap` on `fs::rename` (src/main.rs:57). -/
theorem vanished_source_panics_cex :
    file_op false false = FileOpResult.panicOut := rfl

/-- Claim C4, amended: a vanished source makes the member task panic inside
`file_op` (no warning, no relocation effect), but the panic is confined to
that member worker thread — the group still reaches its reconciliation after
the join, and the program continues. -/
theorem vanished_source_panic_confined (grp : String) (idx : Nat) (m : MemberSpec)
    (g : GroupSpec) (hm : m.srcExists = false) (h₁ : g.members.length > 1)
    (h₂ : groupTmpExists g = true) :
    file_op false m.srcExists = FileOpResult.panicOut ∧
    Effect.backup grp idx ∉ memberTaskEffects grp idx m ∧
    Effect.reconcile g.filename ∈ groupEffects g := by
  refine ⟨by rw [hm]; rfl, ?_, ?_⟩
  · intro hmem
    unfold memberTaskEffects at hmem
    cases h : unzip_one_file m.archive idx <;> rw [h] at hmem <;> simp [hm] at hmem
  · unfold groupEffects
    rw [if_pos h₁]
    apply List.mem_append_right
    unfold groupPost
    rw [if_pos h₂]
    by_cases hr : (reconMap (groupScanEntries g)).isEmpty = true
    · rw [if_pos hr]
      simp
    · rw [if_neg hr]
      exact List.mem_cons_self _ _

/-- Witness for `vanished_source_panic_confined` at a concrete member and
group. -/
theorem vanished_source_panic_confined_witness :
    (MemberSpec.mk (ArchiveInput.ok [MemberEntry.mk true [PComp.normal "m"] false 1 10]) false).srcExists = false ∧
    (GroupSpec.mk "pkg.var"
      [MemberSpec.mk (ArchiveInput.ok [MemberEntry.mk true [PComp.normal "m"] false 1 10]) false,
       MemberSpec.mk (ArchiveInput.ok [MemberEntry.mk true [PComp.normal "m"] false 2 12]) true] true).members.length > 1 ∧
    groupTmpExists (GroupSpec.mk "pkg.var"
      [MemberSpec.mk (ArchiveInput.ok [MemberEntry.mk true [PComp.normal "m"] false 1 10]) false,
       MemberSpec.mk (ArchiveInput.ok [MemberEntry.mk true [PComp.normal "m"] false 2 12]) true] true) = true ∧
    (file_op false false = FileOpResult.panicOut ∧
     Effect.backup "pkg.var" 0 ∉ memberTaskEffects "pkg.var" 0
       (MemberSpec.mk (ArchiveInput.ok [MemberEntry.mk true [PComp.normal "m"] false 1 10]) false) ∧
     Effect.reconcile "pkg.var" ∈ groupEffects (GroupSpec.mk "pkg.var"
      [MemberSpec.mk (ArchiveInput.ok [MemberEntry.mk true [PComp.normal "m"] false 1 10]) false,
       MemberSpec.mk (ArchiveInput.ok [MemberEntry.mk true [PComp.normal "m"] false 2 12]) true] true)) :=
  ⟨rfl, by decide, by decide,
    vanished_source_panic_confined "pkg.var" 0
      (MemberSpec.mk (ArchiveInput.ok [MemberEntry.mk true [PComp.normal "m"] false 1 10]) false)
      (GroupSpec.mk "pkg.var"
        [MemberSpec.mk (ArchiveInput.ok [MemberEntry.mk true [PComp.normal "m"] false 1 10]) false,
         MemberSpec.mk (ArchiveInput.ok [MemberEntry.mk true [PComp.normal "m"] false 2 12]) true] true)
      rfl (by decide) (by decide)⟩

/-- Claim C10 counterexample: a member archive whose file cannot be opened
(extraction fails by panicking in the `expect` at src/main.rs:200-201) is
not relocated to backup even though its source still exists — the member
task dies before the `file_op` call at src/main.rs:279. -/
theorem unopenable_member_not_relocated_cex :
    (MemberSpec.mk ArchiveInput.openFail true).srcExists = true ∧
    Effect.backup "pkg.var" 0 ∉
      memberTaskEffects "pkg.var" 0 (MemberSpec.mk ArchiveInput.openFail true) :=
  ⟨rfl, by decide⟩

/-- Claim C10, amended: a member whose extraction fails without panicking —
in particular an invalid or unindexable container, handled at
src/main.rs:204-207 — is still relocated to backup afterwards; only a member
whose extraction panics (an unopenable file) skips the relocation. -/
theorem nonpanicking_failure_still_relocated (grp : String) (idx : Nat) (m : MemberSpec)
    (h₁ : m.srcExists = true) (h₂ : m.archive ≠ ArchiveInput.openFail) :
    Effect.backup grp idx ∈ memberTaskEffects grp idx m := by
  unfold memberTaskEffects
  cases ha : m.archive
  case openFail => exact absurd ha h₂
  case invalidZip => simp [unzip_one_file, h₁]
  case ok ms => simp [unzip_one_file, h₁]

/-- Witness for `nonpanicking_failure_still_relocated` at a concrete
invalid-container member. -/
theorem nonpanicking_failure_still_relocated_witness :
    (MemberSpec.mk ArchiveInput.invalidZip true).srcExists = true ∧
    (MemberSpec.mk ArchiveInput.invalidZip true).archive ≠ ArchiveInput.openFail ∧
    Effect.backup "pkg.var" 1 ∈
      memberTaskEffects "pkg.var" 1 (MemberSpec.mk ArchiveInput.invalidZip true) :=
  ⟨rfl, by decide, nonpanicking_failure_still_relocated "pkg.var" 1 _ rfl (by decide)⟩

/-- Claim C6 counterexample: an archive whose file cannot be opened at all
is not skipped with a logged message — the `expect` at src/main.rs:200-201
panics the member task. -/
theorem unopenable_archive_panics_cex :
    unzip_one_file ArchiveInput.openFail 0 = UnzipOutcome.panicOut := rfl

/-- Claim C6, amended: an archive whose zip index is unreadable is skipped
with a printed message and the rest of the group continues; an archive whose
file cannot be opened panics that member task; an individual member whose
`by_index` read fails is skipped with a printed warning and extraction
continues with the next member. -/
theorem invalid_zip_skipped_member_errors_skipped (idx : Nat)
    (ms₁ ms₂ : List MemberEntry) (bad : MemberEntry) (hbad : bad.byIndexOk = false) :
    unzip_one_file ArchiveInput.invalidZip idx = UnzipOutcome.skippedInvalid ∧
    unzip_one_file ArchiveInput.openFail idx = UnzipOutcome.panicOut ∧
    memberWrites idx (ms₁ ++ bad :: ms₂) = memberWrites idx ms₁ ++ memberWrites idx ms₂ := by
  refine ⟨rfl, rfl, ?_⟩
  simp [memberWrites, List.filterMap_append, List.filterMap_cons, hbad]

/-- Witness for `invalid_zip_skipped_member_errors_skipped` at a concrete
archive with one failing member between two good ones. -/
theorem invalid_zip_skipped_member_errors_skipped_witness :
    (MemberEntry.mk false [PComp.normal "c"] false 3 4).byIndexOk = false ∧
    (unzip_one_file ArchiveInput.invalidZip 0 = UnzipOutcome.skippedInvalid ∧
     unzip_one_file ArchiveInput.openFail 0 = UnzipOutcome.panicOut ∧
     memberWrites 0 ([MemberEntry.mk true [PComp.normal "a"] false 1 2] ++
         MemberEntry.mk false [PComp.normal "c"] false 3 4 ::
           [MemberEntry.mk true [PComp.normal "b"] false 2 3]) =
       memberWrites 0 [MemberEntry.mk true [PComp.normal "a"] false 1 2] ++
         memberWrites 0 [MemberEntry.mk true [PComp.normal "b"] false 2 3]) :=
  ⟨rfl, invalid_zip_skipped_member_errors_skipped 0 _ _ _ rfl⟩

/-- Claim C3 counterexample: a per-entry read error during discovery does
not yield a partial result — `generate_duplicate_var_files` returns the
error (src/main.rs:79) and the `unwrap` at src/main.rs:257 makes it fatal,
so the readable entry alongside it is never returned or processed. -/
theorem discovery_error_fatal_cex :
    generate_duplicate_var_files
        [GlobItem.errItem 7, GlobItem.okItem ["a", "pkg.var"] true] = Except.error 7 ∧
    mainDiscoveryOutcome
        [GlobItem.errItem 7, GlobItem.okItem ["a", "pkg.var"] true] = none :=
  ⟨rfl, rfl⟩

/-- Claim C3, amended: any per-entry read error under the scan root aborts
the whole discovery — the function returns an error and `main` unwraps it,
so no group at all is processed. -/
theorem discovery_error_fatal (items : List GlobItem) (e : Nat)
    (h : GlobItem.errItem e ∈ items) :
    (∃ e₁, generate_duplicate_var_files items = Except.error e₁) ∧
    mainDiscoveryOutcome items = none := by
  obtain ⟨e₁, he₁⟩ := gen_dup_aux_error e items [] h
  refine ⟨⟨e₁, he₁⟩, ?_⟩
  unfold mainDiscoveryOutcome generate_duplicate_var_files
  rw [he₁]

/-- Witness for `discovery_error_fatal` with the error after a readable
entry. -/
theorem discovery_error_fatal_witness :
    GlobItem.errItem 3 ∈ [GlobItem.okItem ["b", "x.var"] true, GlobItem.errItem 3] ∧
    ((∃ e₁, generate_duplicate_var_files
        [GlobItem.okItem ["b", "x.var"] true, GlobItem.errItem 3] = Except.error e₁) ∧
     mainDiscoveryOutcome [GlobItem.okItem ["b", "x.var"] true, GlobItem.errItem 3] = none) :=
  ⟨by decide, discovery_error_fatal _ 3 (by decide)⟩

/-- Claim C2 counterexample: a group whose repackaging fails (the `unwrap`
at src/main.rs:195 panics) does skip its own cleanup, but the final cleanup
of `main` (src/main.rs:291-293) removes the entire temporary root — and with
it the failed group tree — before the program exits, contradicting the
claim that no later cleanup deletes it. -/
theorem failed_pack_tree_removed_by_final_cleanup_cex :
    Effect.removeGroupTmp "pkg.var" ∉ groupEffects (GroupSpec.mk "pkg.var"
      [MemberSpec.mk (ArchiveInput.ok [MemberEntry.mk true [PComp.normal "m"] false 1 10]) true,
       MemberSpec.mk (ArchiveInput.ok [MemberEntry.mk true [PComp.normal "m"] false 2 12]) true] false) ∧
    Effect.removeTmpRoot ∈ mainEffects [GroupSpec.mk "pkg.var"
      [MemberSpec.mk (ArchiveInput.ok [MemberEntry.mk true [PComp.normal "m"] false 1 10]) true,
       MemberSpec.mk (ArchiveInput.ok [MemberEntry.mk true [PComp.normal "m"] false 2 12]) true] false] := by
  constructor
  · decide
  · decide

/-- Claim C2, amended: on repackaging failure the group task panics before
its own `remove_dir_all`, so the group-scoped cleanup is skipped — but the
final cleanup of `main` removes the whole temporary root, including the
failed group tree, before the program exits. -/
theorem pack_failure_retains_tree_until_final_cleanup (g : GroupSpec)
    (gs : List GroupSpec) (hg : g ∈ gs) (h₁ : g.members.length > 1)
    (h₂ : groupTmpExists g = true)
    (h₃ : (reconMap (groupScanEntries g)).isEmpty = false) (h₄ : g.packOk = false) :
    Effect.removeGroupTmp g.filename ∉ groupEffects g ∧
    Effect.removeTmpRoot ∈ mainEffects gs := by
  constructor
  · intro hmem
    unfold groupEffects at hmem
    rw [if_pos h₁] at hmem
    rcases List.mem_append.mp hmem with h | h
    · have := memberPhase_phase g _ h
      simp [isMemberPhaseEffect] at this
    · unfold groupPost at h
      rw [if_pos h₂, h₃, h₄] at h
      simp at h
  · unfold mainEffects
    apply List.mem_append_right
    have hroot : tmpRootRemains gs = true := by
      unfold tmpRootRemains
      rw [List.any_eq_true]
      exact ⟨g, hg, by simp [h₁, h₂]⟩
    rw [hroot]
    simp

/-- Witness for `pack_failure_retains_tree_until_final_cleanup` at a
concrete failing group. -/
theorem pack_failure_retains_tree_until_final_cleanup_witness :
    (GroupSpec.mk "q.var"
      [MemberSpec.mk (ArchiveInput.ok [MemberEntry.mk true [PComp.normal "a"] false 1 5]) true,
       MemberSpec.mk (ArchiveInput.ok [MemberEntry.mk true [PComp.normal "a"] false 2 6]) true] false) ∈
      [GroupSpec.mk "q.var"
        [MemberSpec.mk (ArchiveInput.ok [MemberEntry.mk true [PComp.normal "a"] false 1 5]) true,
         MemberSpec.mk (ArchiveInput.ok [MemberEntry.mk true [PComp.normal "a"] false 2 6]) true] false] ∧
    (Effect.removeGroupTmp "q.var" ∉ groupEffects (GroupSpec.mk "q.var"
      [MemberSpec.mk (ArchiveInput.ok [MemberEntry.mk true [PComp.normal "a"] false 1 5]) true,
       MemberSpec.mk (ArchiveInput.ok [MemberEntry.mk true [PComp.normal "a"] false 2 6]) true] false) ∧
     Effect.removeTmpRoot ∈ mainEffects [GroupSpec.mk "q.var"
      [MemberSpec.mk (ArchiveInput.ok [MemberEntry.mk true [PComp.normal "a"] false 1 5]) true,
       MemberSpec.mk (ArchiveInput.ok [MemberEntry.mk true [PComp.normal "a"] false 2 6]) true] false]) :=
  ⟨by decide,
    pack_failure_retains_tree_until_final_cleanup
      (GroupSpec.mk "q.var"
        [MemberSpec.mk (ArchiveInput.ok [MemberEntry.mk true [PComp.normal "a"] false 1 5]) true,
         MemberSpec.mk (ArchiveInput.ok [MemberEntry.mk true [PComp.normal "a"] false 2 6]) true] false)
      [GroupSpec.mk "q.var"
        [MemberSpec.mk (ArchiveInput.ok [MemberEntry.mk true [PComp.normal "a"] false 1 5]) true,
         MemberSpec.mk (ArchiveInput.ok [MemberEntry.mk true [PComp.normal "a"] false 2 6]) true] false]
      (by decide) (by decide) (by decide) (by decide) rfl⟩

/-- Claim C8: a reconciliation that finds zero files abandons the group
without producing an output archive (src/main.rs:186-188), a group whose
every member archive fails to extract produces no merged output, and the
effects of sibling groups are unaffected (each group contributes its own
effects to the run independently). -/
theorem empty_reconciliation_abandons_group (es : List ScanEntry) (pOk : Bool)
    (g : GroupSpec) (gs : List GroupSpec) (g₁ : GroupSpec)
    (hes : ∀ e ∈ es, e.isFile = false)
    (hg : ∀ m ∈ g.members,
      m.archive = ArchiveInput.openFail ∨ m.archive = ArchiveInput.invalidZip) :
    rezip_one_file es pOk = RezipOutcome.abandoned ∧
    Effect.packOut g.filename ∉ groupEffects g ∧
    (g₁ ∈ gs → ∀ e ∈ groupEffects g₁, e ∈ mainEffects gs) := by
  refine ⟨?_, ?_, ?_⟩
  · have hmap : reconMap es = [] := by
      unfold reconMap
      suffices hgen : ∀ (l : List ScanEntry), (∀ e ∈ l, e.isFile = false) →
          ∀ acc, l.foldl reconStep acc = acc by
        exact hgen es hes []
      intro l hl
      induction l with
      | nil => intro acc; rfl
      | cons e rest ih =>
        intro acc
        rw [List.foldl_cons]
        have he : e.isFile = false := hl e (List.mem_cons_self _ _)
        have hstep : reconStep acc e = acc := by simp [reconStep, he]
        rw [hstep]
        exact ih (fun x hx => hl x (List.mem_cons_of_mem _ hx)) acc
    simp [rezip_one_file, hmap]
  · intro hmem
    have hex : groupTmpExists g = false := by
      unfold groupTmpExists
      rw [List.any_eq_false]
      intro p hp
      have hm : p.2 ∈ g.members := List.snd_mem_of_mem_enum hp
      rcases hg p.2 hm with h | h <;>
        simp [memberUnzipWrites, h, unzip_one_file]
    unfold groupEffects at hmem
    by_cases hl : g.members.length > 1
    · rw [if_pos hl] at hmem
      rcases List.mem_append.mp hmem with h | h
      · have := memberPhase_phase g _ h
        simp [isMemberPhaseEffect] at this
      · unfold groupPost at h
        rw [hex] at h
        simp at h
    · rw [if_neg hl] at hmem
      simp at hmem
  · intro hg₁ e he
    unfold mainEffects
    exact List.mem_append_left _ (List.mem_flatMap.mpr ⟨g₁, hg₁, he⟩)

/-- Witness for `empty_reconciliation_abandons_group` at a concrete
all-failed group alongside a sibling group. -/
theorem empty_reconciliation_abandons_group_witness :
    (∀ e ∈ [ScanEntry.mk ["0", "d"] false 0 0], e.isFile = false) ∧
    (∀ m ∈ (GroupSpec.mk "pkg.var"
        [MemberSpec.mk ArchiveInput.openFail true,
         MemberSpec.mk ArchiveInput.invalidZip true] true).members,
      m.archive = ArchiveInput.openFail ∨ m.archive = ArchiveInput.invalidZip) ∧
    (rezip_one_file [ScanEntry.mk ["0", "d"] false 0 0] true = RezipOutcome.abandoned ∧
     Effect.packOut "pkg.var" ∉ groupEffects (GroupSpec.mk "pkg.var"
        [MemberSpec.mk ArchiveInput.openFail true,
         MemberSpec.mk ArchiveInput.invalidZip true] true) ∧
     ((GroupSpec.mk "sib.var" [MemberSpec.mk ArchiveInput.invalidZip true] true) ∈
         [GroupSpec.mk "sib.var" [MemberSpec.mk ArchiveInput.invalidZip true] true] →
       ∀ e ∈ groupEffects (GroupSpec.mk "sib.var" [MemberSpec.mk ArchiveInput.invalidZip true] true),
         e ∈ mainEffects [GroupSpec.mk "sib.var" [MemberSpec.mk ArchiveInput.invalidZip true] true])) :=
  ⟨by decide, by decide,
    empty_reconciliation_abandons_group [ScanEntry.mk ["0", "d"] false 0 0] true
      (GroupSpec.mk "pkg.var"
        [MemberSpec.mk ArchiveInput.openFail true,
         MemberSpec.mk ArchiveInput.invalidZip true] true)
      [GroupSpec.mk "sib.var" [MemberSpec.mk ArchiveInput.invalidZip true] true]
      (GroupSpec.mk "sib.var" [MemberSpec.mk ArchiveInput.invalidZip true] true)
      (by decide) (by decide)⟩

/-- Claim C9: the orchestration uses a fixed outer pool of capacity 12 with
one task per duplicate group, and each group with more than one member an
inner pool sized exactly to its member count with one task per member; the
group trace is the member phase followed by the post-join phase, so every
reconciliation, staging, packing or cleanup effect comes after all member
extraction effects — the join at src/main.rs:282 blocks the group until all
member tasks finished, successfully or not. -/
theorem two_level_pool_structure (g : GroupSpec) (gs : List GroupSpec)
    (h : g.members.length > 1) :
    outerPoolCapacity = 12 ∧
    outerTaskCount gs = gs.length ∧
    innerPoolCapacity g = g.members.length ∧
    innerTaskCount g = g.members.length ∧
    ∃ post, groupEffects g = memberPhase g ++ post ∧
      (∀ e ∈ memberPhase g, isMemberPhaseEffect e = true) ∧
      (∀ e ∈ post, isMemberPhaseEffect e = false) := by
  refine ⟨rfl, List.length_map _ _, rfl, ?_,
    groupPost g, ?_, memberPhase_phase g, groupPost_not_phase g⟩
  · unfold innerTaskCount
    rw [List.length_map, List.enum_length]
  · unfold groupEffects
    rw [if_pos h]

/-- Witness for `two_level_pool_structure` at a concrete two-member
group. -/
theorem two_level_pool_structure_witness :
    (GroupSpec.mk "pkg.var"
      [MemberSpec.mk ArchiveInput.invalidZip true,
       MemberSpec.mk ArchiveInput.invalidZip true] true).members.length > 1 ∧
    (outerPoolCapacity = 12 ∧
     outerTaskCount [] = ([] : List GroupSpec).length ∧
     innerPoolCapacity (GroupSpec.mk "pkg.var"
       [MemberSpec.mk ArchiveInput.invalidZip true,
        MemberSpec.mk ArchiveInput.invalidZip true] true) =
       (GroupSpec.mk "pkg.var"
         [MemberSpec.mk ArchiveInput.invalidZip true,
          MemberSpec.mk ArchiveInput.invalidZip true] true).members.length ∧
     innerTaskCount (GroupSpec.mk "pkg.var"
       [MemberSpec.mk ArchiveInput.invalidZip true,
        MemberSpec.mk ArchiveInput.invalidZip true] true) =
       (GroupSpec.mk "pkg.var"
         [MemberSpec.mk ArchiveInput.invalidZip true,
          MemberSpec.mk ArchiveInput.invalidZip true] true).members.length ∧
     ∃ post, groupEffects (GroupSpec.mk "pkg.var"
         [MemberSpec.mk ArchiveInput.invalidZip true,
          MemberSpec.mk ArchiveInput.invalidZip true] true) =
         memberPhase (GroupSpec.mk "pkg.var"
           [MemberSpec.mk ArchiveInput.invalidZip true,
            MemberSpec.mk ArchiveInput.invalidZip true] true) ++ post ∧
       (∀ e ∈ memberPhase (GroupSpec.mk "pkg.var"
           [MemberSpec.mk ArchiveInput.invalidZip true,
            MemberSpec.mk ArchiveInput.invalidZip true] true),
         isMemberPhaseEffect e = true) ∧
       (∀ e ∈ post, isMemberPhaseEffect e = false)) :=
  ⟨by decide,
    two_level_pool_structure
      (GroupSpec.mk "pkg.var"
        [MemberSpec.mk ArchiveInput.invalidZip true,
         MemberSpec.mk ArchiveInput.invalidZip true] true) [] (by decide)⟩

/-- Claim C5: a member whose name the sanitizer rejects (`enclosed_name`
returns `none`: absolute path or upward traversal) is skipped and never
written, extraction continues with the remaining members, every performed
write lands below the destination index subtree, and every name the
sanitizer accepts resolves without escaping the destination root. -/
theorem unsafe_members_never_written (idx : Nat) (ms₁ ms₂ : List MemberEntry)
    (bad : MemberEntry) (hbad : enclosed_name bad.name = none) :
    memberWrites idx (ms₁ ++ bad :: ms₂) = memberWrites idx ms₁ ++ memberWrites idx ms₂ ∧
    (∀ w ∈ memberWrites idx (ms₁ ++ bad :: ms₂), ∃ m,
      (m ∈ ms₁ ∨ m ∈ ms₂) ∧ m.byIndexOk = true ∧ enclosed_name m.name = some m.name ∧
      ∃ r, resolveComps m.name = some r ∧ w.path = toString idx :: r) ∧
    (∀ cs, enclosed_name cs ≠ none → ∃ r, resolveComps cs = some r) := by
  have hsplit : memberWrites idx (ms₁ ++ bad :: ms₂) =
      memberWrites idx ms₁ ++ memberWrites idx ms₂ := by
    simp [memberWrites, List.filterMap_append, List.filterMap_cons, hbad]
  refine ⟨hsplit, ?_, fun cs h => enclosed_name_some_resolves cs h⟩
  intro w hw
  obtain ⟨m, hm, hf⟩ := List.mem_filterMap.mp hw
  by_cases hok : m.byIndexOk = true
  · rw [if_pos hok] at hf
    cases he : enclosed_name m.name with
    | none =>
      rw [he] at hf
      simp at hf
    | some nm =>
      have hnm : nm = m.name := enclosed_name_eq_self he
      rw [he] at hf
      have hf₁ : (match resolveComps nm with
          | none => none
          | some r =>
            some (WriteAction.mk (toString idx :: r) m.isDir m.fileId m.size)) =
          some w := hf
      cases hr : resolveComps nm with
      | none =>
        rw [hr] at hf₁
        simp at hf₁
      | some r =>
        rw [hr] at hf₁
        have hmb : m ≠ bad := by
          intro hmb
          rw [hmb, hbad] at he
          cases he
        have hmem : m ∈ ms₁ ∨ m ∈ ms₂ := by
          rcases List.mem_append.mp hm with h | h
          · exact Or.inl h
          · rcases List.mem_cons.mp h with h₁ | h₁
            · exact absurd h₁ hmb
            · exact Or.inr h₁
        refine ⟨m, hmem, hok, by rw [he, hnm], r, by rw [← hnm]; exact hr, ?_⟩
        injection hf₁ with hf₁
        rw [← hf₁]
  · rw [if_neg hok] at hf
    cases hf

/-- Witness for `unsafe_members_never_written` at a concrete archive with a
traversal member between two good members. -/
theorem unsafe_members_never_written_witness :
    enclosed_name (MemberEntry.mk true [PComp.parentDir] false 2 4).name = none ∧
    (memberWrites 0 ([MemberEntry.mk true [PComp.normal "a"] false 1 3] ++
        MemberEntry.mk true [PComp.parentDir] false 2 4 ::
          [MemberEntry.mk true [PComp.normal "b", PComp.parentDir, PComp.normal "c"] false 3 5]) =
      memberWrites 0 [MemberEntry.mk true [PComp.normal "a"] false 1 3] ++
        memberWrites 0 [MemberEntry.mk true [PComp.normal "b", PComp.parentDir, PComp.normal "c"] false 3 5] ∧
     (∀ w ∈ memberWrites 0 ([MemberEntry.mk true [PComp.normal "a"] false 1 3] ++
        MemberEntry.mk true [PComp.parentDir] false 2 4 ::
          [MemberEntry.mk true [PComp.normal "b", PComp.parentDir, PComp.normal "c"] false 3 5]), ∃ m,
       (m ∈ [MemberEntry.mk true [PComp.normal "a"] false 1 3] ∨
        m ∈ [MemberEntry.mk true [PComp.normal "b", PComp.parentDir, PComp.normal "c"] false 3 5]) ∧
       m.byIndexOk = true ∧ enclosed_name m.name = some m.name ∧
       ∃ r, resolveComps m.name = some r ∧ w.path = toString 0 :: r) ∧
     (∀ cs, enclosed_name cs ≠ none → ∃ r, resolveComps cs = some r)) :=
  ⟨rfl, unsafe_members_never_written 0
    [MemberEntry.mk true [PComp.normal "a"] false 1 3]
    [MemberEntry.mk true [PComp.normal "b", PComp.parentDir, PComp.normal "c"] false 3 5]
    (MemberEntry.mk true [PComp.parentDir] false 2 4) rfl⟩

theorem alookup_append_of_none {k : Key} {l₁ l₂ : List (Key × Cand)}
    (h : alookup k l₁ = none) : alookup k (l₁ ++ l₂) = alookup k l₂ := by
  induction l₁ with
  | nil => rfl
  | cons p t ih =>
    obtain ⟨k₁, v⟩ := p
    rw [List.cons_append]
    simp only [alookup] at h ⊢
    by_cases hk : k₁ = k
    · rw [if_pos hk] at h
      cases h
    · rw [if_neg hk] at h ⊢
      exact ih h

theorem alookup_append_of_some {k : Key} {v : Cand} {l₁ l₂ : List (Key × Cand)}
    (h : alookup k l₁ = some v) : alookup k (l₁ ++ l₂) = some v := by
  induction l₁ with
  | nil => cases h
  | cons p t ih =>
    obtain ⟨k₁, v₁⟩ := p
    rw [List.cons_append]
    simp only [alookup] at h ⊢
    by_cases hk : k₁ = k
    · rw [if_pos hk] at h ⊢
      exact h
    · rw [if_neg hk] at h ⊢
      exact ih h

theorem alookup_aupdate_self {k : Key} {l : List (Key × Cand)} (v : Cand)
    (h : alookup k l ≠ none) : alookup k (aupdate k v l) = some v := by
  induction l with
  | nil => exact absurd rfl h
  | cons p t ih =>
    obtain ⟨k₁, v₁⟩ := p
    by_cases hk : k₁ = k
    · simp [aupdate, if_pos hk, alookup]
    · simp only [aupdate, if_neg hk, alookup]
      apply ih
      simpa [alookup, if_neg hk] using h

theorem alookup_aupdate_ne {k k₁ : Key} (hne : ¬(k₁ = k)) (v : Cand)
    (l : List (Key × Cand)) : alookup k (aupdate k₁ v l) = alookup k l := by
  induction l with
  | nil => rfl
  | cons p t ih =>
    obtain ⟨k₂, v₂⟩ := p
    by_cases h₂ : k₂ = k₁
    · simp only [aupdate, if_pos h₂, alookup]
      have : ¬(k₂ = k) := by rw [h₂]; exact hne
      rw [if_neg this, if_neg this]
    · simp only [aupdate, if_neg h₂, alookup]
      by_cases h₃ : k₂ = k
      · rw [if_pos h₃, if_pos h₃]
      · rw [if_neg h₃, if_neg h₃]
        exact ih

theorem aupdate_keys (k : Key) (v : Cand) (l : List (Key × Cand)) :
    (aupdate k v l).map Prod.fst = l.map Prod.fst := by
  induction l with
  | nil => rfl
  | cons p t ih =>
    obtain ⟨k₁, v₁⟩ := p
    by_cases hk : k₁ = k
    · simp [aupdate, if_pos hk]
    · simp [aupdate, if_neg hk, ih]

theorem alookup_none_not_mem {k : Key} {l : List (Key × Cand)}
    (h : alookup k l = none) : k ∉ l.map Prod.fst := by
  induction l with
  | nil => simp
  | cons p t ih =>
    obtain ⟨k₁, v₁⟩ := p
    simp only [alookup] at h
    by_cases hk : k₁ = k
    · rw [if_pos hk] at h
      cases h
    · rw [if_neg hk] at h
      intro hmem
      rw [List.map_cons] at hmem
      rcases List.mem_cons.mp hmem with h₁ | h₁
      · exact hk h₁.symm
      · exact ih h h₁

theorem reconStep_notfile {acc : List (Key × Cand)} {e : ScanEntry}
    (hf : ¬e.isFile = true) : reconStep acc e = acc := by
  simp [reconStep, hf]

theorem reconStep_insert {acc : List (Key × Cand)} {e : ScanEntry}
    (hf : e.isFile = true) (hl : alookup (get_short_path e.path) acc = none) :
    reconStep acc e = acc ++ [(get_short_path e.path, (e.fileId, e.size))] := by
  simp [reconStep, hf, hl]

theorem reconStep_replace {acc : List (Key × Cand)} {e : ScanEntry} {c : Cand}
    (hf : e.isFile = true) (hl : alookup (get_short_path e.path) acc = some c)
    (hc : c.2 < e.size) :
    reconStep acc e = aupdate (get_short_path e.path) (e.fileId, e.size) acc := by
  simp [reconStep, hf, hl, hc]

theorem reconStep_keep {acc : List (Key × Cand)} {e : ScanEntry} {c : Cand}
    (hf : e.isFile = true) (hl : alookup (get_short_path e.path) acc = some c)
    (hc : ¬c.2 < e.size) : reconStep acc e = acc := by
  simp [reconStep, hf, hl, hc]

theorem reconStep_keys_nodup {acc : List (Key × Cand)} {e : ScanEntry}
    (h : (acc.map Prod.fst).Nodup) : ((reconStep acc e).map Prod.fst).Nodup := by
  by_cases hf : e.isFile = true
  · cases hl : alookup (get_short_path e.path) acc with
    | none =>
      rw [reconStep_insert hf hl, List.map_append, List.nodup_append]
      refine ⟨h, List.nodup_singleton _, ?_⟩
      intro a ha hb
      simp at hb
      rw [hb] at ha
      exact alookup_none_not_mem hl ha
    | some c =>
      by_cases hc : c.2 < e.size
      · rw [reconStep_replace hf hl hc, aupdate_keys]
        exact h
      · rw [reconStep_keep hf hl hc]
        exact h
  · rw [reconStep_notfile hf]
    exact h

theorem reconAux_keys_nodup (es : List ScanEntry) : ∀ acc : List (Key × Cand),
    (acc.map Prod.fst).Nodup → ((es.foldl reconStep acc).map Prod.fst).Nodup := by
  induction es with
  | nil => intro acc h; exact h
  | cons e rest ih =>
    intro acc h
    rw [List.foldl_cons]
    exact ih _ (reconStep_keys_nodup h)

theorem bestFrom_isSome (l : List Cand) : ∀ b : Cand, ∃ c, bestFrom (some b) l = some c := by
  induction l with
  | nil => intro b; exact ⟨b, rfl⟩
  | cons o rest ih =>
    intro b
    by_cases hb : b.2 < o.2
    · obtain ⟨c, hc⟩ := ih o
      exact ⟨c, by simp only [bestFrom]; rw [if_pos hb]; exact hc⟩
    · obtain ⟨c, hc⟩ := ih b
      exact ⟨c, by simp only [bestFrom]; rw [if_neg hb]; exact hc⟩

theorem bestFrom_mem (l : List Cand) : ∀ b c : Cand,
    bestFrom (some b) l = some c → c = b ∨ c ∈ l := by
  induction l with
  | nil =>
    intro b c h
    injection h with h
    exact Or.inl h.symm
  | cons o rest ih =>
    intro b c h
    simp only [bestFrom] at h
    by_cases hb : b.2 < o.2
    · rw [if_pos hb] at h
      rcases ih o c h with h₁ | h₁
      · right
        rw [h₁]
        exact List.mem_cons_self _ _
      · exact Or.inr (List.mem_cons_of_mem _ h₁)
    · rw [if_neg hb] at h
      rcases ih b c h with h₁ | h₁
      · exact Or.inl h₁
      · exact Or.inr (List.mem_cons_of_mem _ h₁)

theorem bestFrom_le (l : List Cand) : ∀ b c : Cand, bestFrom (some b) l = some c →
    b.2 ≤ c.2 ∧ ∀ o ∈ l, o.2 ≤ c.2 := by
  induction l with
  | nil =>
    intro b c h
    injection h with h
    rw [← h]
    exact ⟨le_refl _, by simp⟩
  | cons o rest ih =>
    intro b c h
    simp only [bestFrom] at h
    by_cases hb : b.2 < o.2
    · rw [if_pos hb] at h
      obtain ⟨h₁, h₂⟩ := ih o c h
      refine ⟨le_trans (le_of_lt hb) h₁, ?_⟩
      intro x hx
      rcases List.mem_cons.mp hx with h₃ | h₃
      · rw [h₃]
        exact h₁
      · exact h₂ x h₃
    · rw [if_neg hb] at h
      obtain ⟨h₁, h₂⟩ := ih b c h
      refine ⟨h₁, ?_⟩
      intro x hx
      rcases List.mem_cons.mp hx with h₃ | h₃
      · rw [h₃]
        exact le_trans (Nat.le_of_not_lt hb) h₁
      · exact h₂ x h₃

theorem bestFrom_first (l : List Cand) : ∀ b c : Cand, bestFrom (some b) l = some c →
    c = b ∨ ∃ pre suf, l = pre ++ c :: suf ∧ b.2 < c.2 ∧ ∀ o ∈ pre, o.2 < c.2 := by
  induction l with
  | nil =>
    intro b c h
    injection h with h
    exact Or.inl h.symm
  | cons o rest ih =>
    intro b c h
    simp only [bestFrom] at h
    by_cases hb : b.2 < o.2
    · rw [if_pos hb] at h
      rcases ih o c h with h₁ | ⟨pre, suf, hps, hoc, hpre⟩
      · right
        refine ⟨[], rest, ?_, ?_, by simp⟩
        · rw [h₁]
          rfl
        · rw [h₁]
          exact hb
      · right
        refine ⟨o :: pre, suf, ?_, lt_trans hb hoc, ?_⟩
        · rw [List.cons_append, ← hps]
        · intro x hx
          rcases List.mem_cons.mp hx with h₂ | h₂
          · rw [h₂]
            exact hoc
          · exact hpre x h₂
    · rw [if_neg hb] at h
      rcases ih b c h with h₁ | ⟨pre, suf, hps, hbc, hpre⟩
      · exact Or.inl h₁
      · right
        refine ⟨o :: pre, suf, ?_, hbc, ?_⟩
        · rw [List.cons_append, ← hps]
        · intro x hx
          rcases List.mem_cons.mp hx with h₂ | h₂
          · rw [h₂]
            exact lt_of_le_of_lt (Nat.le_of_not_lt hb) hbc
          · exact hpre x h₂

theorem alookup_foldl_reconStep (k : Key) (es : List ScanEntry) :
    ∀ acc : List (Key × Cand), alookup k (es.foldl reconStep acc) =
      bestFrom (alookup k acc) (occurrencesOf k es) := by
  induction es with
  | nil =>
    intro acc
    simp only [List.foldl_nil, occurrencesOf, List.filterMap_nil, bestFrom]
  | cons e rest ih =>
    intro acc
    rw [List.foldl_cons]
    by_cases hf : e.isFile = true
    · by_cases hk : get_short_path e.path = k
      · have hocc : occurrencesOf k (e :: rest) =
            (e.fileId, e.size) :: occurrencesOf k rest := by
          simp [occurrencesOf, List.filterMap_cons, hf, hk]
        rw [hocc]
        cases hl : alookup k acc with
        | none =>
          have hl₁ : alookup (get_short_path e.path) acc = none := by
            rw [hk]
            exact hl
          have hlook : alookup k (acc ++ [(get_short_path e.path, (e.fileId, e.size))]) =
              some (e.fileId, e.size) := by
            rw [alookup_append_of_none hl]
            simp [alookup, hk]
          rw [reconStep_insert hf hl₁, ih, hlook]
          simp only [bestFrom]
        | some b =>
          have hl₁ : alookup (get_short_path e.path) acc = some b := by
            rw [hk]
            exact hl
          by_cases hbs : b.2 < e.size
          · have hlook : alookup k
                (aupdate (get_short_path e.path) (e.fileId, e.size) acc) =
                some (e.fileId, e.size) := by
              rw [hk]
              exact alookup_aupdate_self _ (by rw [hl]; simp)
            rw [reconStep_replace hf hl₁ hbs, ih, hlook]
            simp only [bestFrom]
            rw [if_pos hbs]
          · rw [reconStep_keep hf hl₁ hbs, ih, hl]
            simp only [bestFrom]
            rw [if_neg hbs]
      · have hocc : occurrencesOf k (e :: rest) = occurrencesOf k rest := by
          simp [occurrencesOf, List.filterMap_cons, hk]
        have hstep : alookup k (reconStep acc e) = alookup k acc := by
          cases hl : alookup (get_short_path e.path) acc with
          | none =>
            rw [reconStep_insert hf hl]
            cases hacc : alookup k acc with
            | none =>
              rw [alookup_append_of_none hacc]
              simp [alookup, hk]
            | some v => exact alookup_append_of_some hacc
          | some c =>
            by_cases hcs : c.2 < e.size
            · rw [reconStep_replace hf hl hcs]
              exact alookup_aupdate_ne hk _ _
            · rw [reconStep_keep hf hl hcs]
        rw [hocc, ih, hstep]
    · have hocc : occurrencesOf k (e :: rest) = occurrencesOf k rest := by
        simp [occurrencesOf, List.filterMap_cons, hf]
      rw [hocc, reconStep_notfile hf, ih]

/-- Claim C1: for every relative member path occurring among the scan
entries, the reconciliation of `rezip_one_file` retains exactly one
candidate — keys are unique in the map —, that candidate is the per-key fold
recording the first occurrence and replacing it only on strictly greater
size, equivalently the first occurrence of maximal size in scan order (ties
keep the first encountered), and the packed merged output consists exactly
of the retained map (the winners staged into the working tree and walked by
`zip_one_file`). -/
theorem reconciliation_selects_first_largest (es : List ScanEntry) (k : Key)
    (hk : occurrencesOf k es ≠ []) :
    ∃ r b, rezip_one_file es true = RezipOutcome.packed r ∧ r = reconMap es ∧
      (r.map Prod.fst).Nodup ∧
      alookup k r = some b ∧ bestOcc (occurrencesOf k es) = some b ∧
      b ∈ occurrencesOf k es ∧ (∀ o ∈ occurrencesOf k es, o.2 ≤ b.2) ∧
      ∃ pre suf, occurrencesOf k es = pre ++ b :: suf ∧ ∀ o ∈ pre, o.2 < b.2 := by
  have hmain : alookup k (reconMap es) = bestOcc (occurrencesOf k es) := by
    unfold reconMap bestOcc
    rw [alookup_foldl_reconStep k es []]
    rfl
  obtain ⟨o, occs, hocc⟩ : ∃ o occs, occurrencesOf k es = o :: occs := by
    cases hoc : occurrencesOf k es with
    | nil => exact absurd hoc hk
    | cons o t => exact ⟨o, t, rfl⟩
  obtain ⟨c, hc⟩ := bestFrom_isSome occs o
  have hbest : bestOcc (occurrencesOf k es) = some c := by
    rw [hocc]
    unfold bestOcc
    simp only [bestFrom]
    exact hc
  have hlook : alookup k (reconMap es) = some c := by
    rw [hmain, hbest]
  have hne : reconMap es ≠ [] := by
    intro h₀
    rw [h₀] at hlook
    cases hlook
  have hpack : rezip_one_file es true = RezipOutcome.packed (reconMap es) := by
    have hfalse : (reconMap es).isEmpty = false := List.isEmpty_eq_false.mpr hne
    simp [rezip_one_file, hfalse]
  refine ⟨reconMap es, c, hpack, rfl, ?_, hlook, hbest, ?_, ?_, ?_⟩
  · unfold reconMap
    exact reconAux_keys_nodup es [] (by simp)
  · rw [hocc]
    rcases bestFrom_mem occs o c hc with h | h
    · rw [h]
      exact List.mem_cons_self _ _
    · exact List.mem_cons_of_mem _ h
  · rw [hocc]
    obtain ⟨h₁, h₂⟩ := bestFrom_le occs o c hc
    intro x hx
    rcases List.mem_cons.mp hx with h₃ | h₃
    · rw [h₃]
      exact h₁
    · exact h₂ x h₃
  · rw [hocc]
    rcases bestFrom_first occs o c hc with h | ⟨pre, suf, hps, hoc₂, hpre⟩
    · exact ⟨[], occs, by rw [h]; rfl, by simp⟩
    · refine ⟨o :: pre, suf, by rw [List.cons_append, ← hps], ?_⟩
      intro x hx
      rcases List.mem_cons.mp hx with h₂ | h₂
      · rw [h₂]
        exact hoc₂
      · exact hpre x h₂

/-- Witness for `reconciliation_selects_first_largest` at a concrete scan
with a size tie on the key: the first-scanned occurrence wins. -/
theorem reconciliation_selects_first_largest_witness :
    occurrencesOf ["meta.json"]
      [ScanEntry.mk ["0", "meta.json"] true 1 10,
       ScanEntry.mk ["1", "meta.json"] true 2 10,
       ScanEntry.mk ["1", "extra.txt"] true 3 4] ≠ [] ∧
    (∃ r b, rezip_one_file
        [ScanEntry.mk ["0", "meta.json"] true 1 10,
         ScanEntry.mk ["1", "meta.json"] true 2 10,
         ScanEntry.mk ["1", "extra.txt"] true 3 4] true = RezipOutcome.packed r ∧
      r = reconMap
        [ScanEntry.mk ["0", "meta.json"] true 1 10,
         ScanEntry.mk ["1", "meta.json"] true 2 10,
         ScanEntry.mk ["1", "extra.txt"] true 3 4] ∧
      (r.map Prod.fst).Nodup ∧
      alookup ["meta.json"] r = some b ∧
      bestOcc (occurrencesOf ["meta.json"]
        [ScanEntry.mk ["0", "meta.json"] true 1 10,
         ScanEntry.mk ["1", "meta.json"] true 2 10,
         ScanEntry.mk ["1", "extra.txt"] true 3 4]) = some b ∧
      b ∈ occurrencesOf ["meta.json"]
        [ScanEntry.mk ["0", "meta.json"] true 1 10,
         ScanEntry.mk ["1", "meta.json"] true 2 10,
         ScanEntry.mk ["1", "extra.txt"] true 3 4] ∧
      (∀ o ∈ occurrencesOf ["meta.json"]
        [ScanEntry.mk ["0", "meta.json"] true 1 10,
         ScanEntry.mk ["1", "meta.json"] true 2 10,
         ScanEntry.mk ["1", "extra.txt"] true 3 4], o.2 ≤ b.2) ∧
      ∃ pre suf, occurrencesOf ["meta.json"]
        [ScanEntry.mk ["0", "meta.json"] true 1 10,
         ScanEntry.mk ["1", "meta.json"] true 2 10,
         ScanEntry.mk ["1", "extra.txt"] true 3 4] = pre ++ b :: suf ∧
        ∀ o ∈ pre, o.2 < b.2) :=
  ⟨by decide, reconciliation_selects_first_largest
    [ScanEntry.mk ["0", "meta.json"] true 1 10,
     ScanEntry.mk ["1", "meta.json"] true 2 10,
     ScanEntry.mk ["1", "extra.txt"] true 3 4] ["meta.json"] (by decide)⟩

end VarCleaner
